import Mathlib

/-
Verification of the Snake Ludo coordination core (src/LA4).

The development shallowly embeds the move-resolution logic of players.c
(roll_dice, is_cell_occupied, apply_snakes_ladders, the per-activation body
of player_process, get_next_player, the move-dispatch branch of
player_parent_process), the shared-state initialization and teardown of
ludo.c (create_shared_memory, cleanup) and the rendezvous-channel readers of
ludo.c (read_line_from_fifo, wait_for_ack, read_pid_from_pipe).

Machine integers are modelled as Int (no arithmetic here approaches 32-bit
overflow: positions, dice totals and board effects stay tiny).  The shared
player array is a List Int of positions; the active counter (stored at index
num_players in the C array) is carried as a separate Int field.  Side
effects are made explicit: the number of SIGUSR1 render signals sent to the
board process is returned as a count, and cleanup is modelled as the list of
actions it performs, in order.
-/

namespace Ludo

/-- roll_dice from players.c, as a function of the up to three die values
the successive calls of `(rand() % 6) + 1` would produce.  The loop rolls
until a non-6 comes up or three dice were thrown; three 6s cancel the move
and report total 0. -/
def roll_dice (d1 d2 d3 : Nat) : Nat :=
  if d1 ≠ 6 then d1
  else if d2 ≠ 6 then d1 + d2
  else if d3 ≠ 6 then d1 + d2 + d3
  else 0

/-- is_cell_occupied from players.c: cells outside 1..99 (home 0, finish
100, and anything off the board) are never occupied; otherwise some player
other than `current_player_idx` sits exactly on `cell`. -/
def is_cell_occupied (cell : Int) (current_player_idx : Nat) (players : List Int) : Bool :=
  if cell ≤ 0 ∨ 100 ≤ cell then false
  else (List.range players.length).any fun i =>
    decide (i ≠ current_player_idx) && decide (players.getD i 0 = cell)

theorem is_cell_occupied_eq_true {cell : Int} {idx : Nat} {players : List Int} :
    is_cell_occupied cell idx players = true ↔
      (0 < cell ∧ cell < 100 ∧
        ∃ i, i < players.length ∧ i ≠ idx ∧ players.getD i 0 = cell) := by
  unfold is_cell_occupied
  rcases Classical.em (cell ≤ 0 ∨ 100 ≤ cell) with h | h
  · rw [if_pos h]
    simp only [Bool.false_eq_true, false_iff]
    intro ⟨h1, h2, _⟩
    omega
  · rw [if_neg h]
    simp only [List.any_eq_true, List.mem_range, Bool.and_eq_true, decide_eq_true_eq]
    constructor
    · intro ⟨i, hi, hne, heq⟩
      exact ⟨by omega, by omega, i, hi, hne, heq⟩
    · intro ⟨_, _, i, hi, hne, heq⟩
      exact ⟨i, hi, hne, heq⟩

theorem is_cell_occupied_out_of_range {cell : Int} {idx : Nat} {players : List Int}
    (h : cell ≤ 0 ∨ 100 ≤ cell) : is_cell_occupied cell idx players = false := by
  unfold is_cell_occupied
  rw [if_pos h]

/-- Measure used for the termination of the chain-resolution loop of
apply_snakes_ladders: the number of board cells 0..99 not yet marked in
the `visited` array. -/
def aslVisitedMeasure (visited : List Int) : Nat :=
  ((Finset.range 100).filter (fun c : Nat => ¬ ((c : Int) ∈ visited))).card

theorem aslVisitedMeasure_cons_lt {pos : Int} {visited : List Int}
    (h0 : 0 < pos) (h1 : pos < 100) (h2 : pos ∉ visited) :
    aslVisitedMeasure (pos :: visited) < aslVisitedMeasure visited := by
  unfold aslVisitedMeasure
  apply Finset.card_lt_card
  constructor
  · intro c hc
    simp only [Finset.mem_filter, Finset.mem_range, List.mem_cons] at hc ⊢
    exact ⟨hc.1, fun hm => hc.2 (Or.inr hm)⟩
  · intro hsub
    have hmem : pos.toNat ∈ (Finset.range 100).filter
        (fun c : Nat => ¬ ((c : Int) ∈ visited)) := by
      simp only [Finset.mem_filter, Finset.mem_range]
      constructor
      · omega
      · rw [Int.toNat_of_nonneg (by omega)]; exact h2
    have := hsub hmem
    simp only [Finset.mem_filter, Finset.mem_range, List.mem_cons] at this
    exact this.2 (Or.inl (by rw [Int.toNat_of_nonneg (by omega)]))

/-- The while loop of apply_snakes_ladders from players.c, with the
visited bitmap carried as the list of cells already marked.  While the
current cell is on the board (0 < pos < 100), carries a non-zero effect and
was not yet visited: mark it, compute pos + effect, stop at the pre-effect
cell if the target is occupied by another player, otherwise move there.
All cells ever tested or marked satisfy 0 < pos < 100, so the bitmap
accesses of the C code are in bounds and faithfully modelled by list
membership. -/
def aslRun (b : Nat → Int) (players : List Int) (idx : Nat)
    (visited : List Int) (pos : Int) : Int :=
  if h : 0 < pos ∧ pos < 100 ∧ b pos.toNat ≠ 0 ∧ pos ∉ visited then
    let newPos := pos + b pos.toNat
    if is_cell_occupied newPos idx players then pos
    else aslRun b players idx (pos :: visited) newPos
  else pos
termination_by aslVisitedMeasure visited
decreasing_by exact aslVisitedMeasure_cons_lt h.1 h.2.1 h.2.2.2

/-- apply_snakes_ladders from players.c: run the chain loop with an
all-clear visited bitmap. -/
def apply_snakes_ladders (b : Nat → Int) (players : List Int) (idx : Nat) (pos : Int) : Int :=
  aslRun b players idx [] pos

/-- Fuel-bounded version of the chain loop, used to evaluate it and to
state the step bound: 100 units of fuel (one per board cell that can be
marked) always suffice. -/
def aslFuel (b : Nat → Int) (players : List Int) (idx : Nat) :
    Nat → List Int → Int → Int
  | 0, _, pos => pos
  | fuel + 1, visited, pos =>
    if 0 < pos ∧ pos < 100 ∧ b pos.toNat ≠ 0 ∧ pos ∉ visited then
      let newPos := pos + b pos.toNat
      if is_cell_occupied newPos idx players then pos
      else aslFuel b players idx fuel (pos :: visited) newPos
    else pos

theorem aslRun_unfold (b : Nat → Int) (players : List Int) (idx : Nat)
    (visited : List Int) (pos : Int) :
    aslRun b players idx visited pos =
      if 0 < pos ∧ pos < 100 ∧ b pos.toNat ≠ 0 ∧ pos ∉ visited then
        (if is_cell_occupied (pos + b pos.toNat) idx players then pos
         else aslRun b players idx (pos :: visited) (pos + b pos.toNat))
      else pos := by
  rw [aslRun]
  split
  · rfl
  · rfl

theorem aslVisitedMeasure_le (visited : List Int) : aslVisitedMeasure visited ≤ 100 := by
  unfold aslVisitedMeasure
  calc ((Finset.range 100).filter (fun c : Nat => ¬ ((c : Int) ∈ visited))).card
      ≤ (Finset.range 100).card := Finset.card_filter_le _ _
    _ = 100 := Finset.card_range 100

/-- The fuel-bounded loop agrees with the real loop whenever the fuel is at
least the number of unvisited cells; in particular fuel 100 always
suffices, which is the at-most-board-length step bound of the chain
resolution. -/
theorem aslFuel_eq_aslRun (b : Nat → Int) (players : List Int) (idx : Nat) :
    ∀ (fuel : Nat) (visited : List Int) (pos : Int),
      aslVisitedMeasure visited ≤ fuel →
      aslFuel b players idx fuel visited pos = aslRun b players idx visited pos := by
  intro fuel
  induction fuel with
  | zero =>
    intro visited pos h
    have hguard : ¬ (0 < pos ∧ pos < 100 ∧ b pos.toNat ≠ 0 ∧ pos ∉ visited) := by
      intro hg
      have hmem : pos.toNat ∈ (Finset.range 100).filter
          (fun c : Nat => ¬ ((c : Int) ∈ visited)) := by
        simp only [Finset.mem_filter, Finset.mem_range]
        refine ⟨by omega, ?_⟩
        rw [Int.toNat_of_nonneg (by omega)]
        exact hg.2.2.2
      have hpos : 0 < aslVisitedMeasure visited := Finset.card_pos.mpr ⟨_, hmem⟩
      omega
    rw [aslRun_unfold, if_neg hguard]
    rfl
  | succ fuel ih =>
    intro visited pos h
    rw [aslRun_unfold]
    simp only [aslFuel]
    by_cases hg : 0 < pos ∧ pos < 100 ∧ b pos.toNat ≠ 0 ∧ pos ∉ visited
    · rw [if_pos hg, if_pos hg]
      by_cases hocc : is_cell_occupied (pos + b pos.toNat) idx players = true
      · rw [if_pos hocc, if_pos hocc]
      · rw [if_neg hocc, if_neg hocc]
        refine ih (pos :: visited) (pos + b pos.toNat) ?_
        have hlt := aslVisitedMeasure_cons_lt hg.1 hg.2.1 hg.2.2.2
        omega
    · rw [if_neg hg, if_neg hg]

/-- The chain loop never commits a cell occupied by another player: if the
landing cell passed was unoccupied, so is the returned cell (every move of
the loop is guarded by the same occupancy check). -/
theorem aslRun_not_occupied (b : Nat → Int) (players : List Int) (idx : Nat)
    (visited : List Int) (pos : Int) :
    is_cell_occupied pos idx players = false →
    is_cell_occupied (aslRun b players idx visited pos) idx players = false := by
  induction visited, pos using aslRun.induct b players idx with
  | case1 visited pos h newPos hocc =>
    intro hp
    rw [aslRun_unfold, if_pos h, if_pos hocc]
    exact hp
  | case2 visited pos h newPos hocc ih =>
    intro _
    rw [aslRun_unfold, if_pos h, if_neg hocc]
    exact ih (Bool.not_eq_true _ ▸ hocc)
  | case3 visited pos h =>
    intro hp
    rw [aslRun_unfold, if_neg h]
    exact hp

/-- A board is well formed when every effect sends each on-board cell
1..99 to a cell in 0..100 (the board model of the design: a ladder or
snake endpoint is itself a cell of the board). -/
def wellFormedBoard (b : Nat → Int) : Prop :=
  ∀ c : Nat, 1 ≤ c → c ≤ 99 → 0 ≤ (c : Int) + b c ∧ (c : Int) + b c ≤ 100

theorem aslRun_range (b : Nat → Int) (players : List Int) (idx : Nat)
    (hw : wellFormedBoard b) (visited : List Int) (pos : Int) :
    0 ≤ pos → pos ≤ 100 →
    0 ≤ aslRun b players idx visited pos ∧ aslRun b players idx visited pos ≤ 100 := by
  induction visited, pos using aslRun.induct b players idx with
  | case1 visited pos h newPos hocc =>
    intro h0 h1
    rw [aslRun_unfold, if_pos h, if_pos hocc]
    exact ⟨h0, h1⟩
  | case2 visited pos h newPos hocc ih =>
    intro _ _
    rw [aslRun_unfold, if_pos h, if_neg hocc]
    have hc := hw pos.toNat (by omega) (by omega)
    rw [Int.toNat_of_nonneg (by omega)] at hc
    exact ih hc.1 hc.2
  | case3 visited pos h =>
    intro h0 h1
    rw [aslRun_unfold, if_neg h]
    exact ⟨h0, h1⟩

/-- The effect-successor of a cell. -/
def nextCell (b : Nat → Int) (pos : Int) : Int := pos + b pos.toNat

/-- A cell at which the chain loop takes an unobstructed step: on the
board, non-zero effect, and the effect target not occupied by another
player. -/
def freeCell (b : Nat → Int) (players : List Int) (idx : Nat) (pos : Int) : Prop :=
  0 < pos ∧ pos < 100 ∧ b pos.toNat ≠ 0 ∧
    is_cell_occupied (nextCell b pos) idx players = false

/-- The visited list accumulated by the chain loop, seen as a path: the
head stepped (freely) to the current cell, and recursively down the list. -/
def isPath (b : Nat → Int) (players : List Int) (idx : Nat) : List Int → Int → Prop
  | [], _ => True
  | c :: l, p => freeCell b players idx c ∧ nextCell b c = p ∧ isPath b players idx l c

/-- A forward chain of free steps from `p` through the cells of `D` to
`t`. -/
def fwdPath (b : Nat → Int) (players : List Int) (idx : Nat) :
    Int → List Int → Int → Prop
  | p, [], t => p = t
  | p, d :: D, t => p = d ∧ freeCell b players idx d ∧
      fwdPath b players idx (nextCell b d) D t

theorem fwdPath_append (b : Nat → Int) (players : List Int) (idx : Nat) :
    ∀ (D : List Int) (p c t : Int),
      fwdPath b players idx p D c → freeCell b players idx c → nextCell b c = t →
      fwdPath b players idx p (D ++ [c]) t := by
  intro D
  induction D with
  | nil =>
    intro p c t hp hf hn
    subst hp
    exact ⟨rfl, hf, hn⟩
  | cons d D2 ih =>
    intro p c t hp hf hn
    exact ⟨hp.1, hp.2.1, ih _ _ _ hp.2.2 hf hn⟩

theorem isPath_extract (b : Nat → Int) (players : List Int) (idx : Nat) :
    ∀ (L : List Int) (p r : Int),
      isPath b players idx L p → L.Nodup → r ∈ L →
      ∃ D : List Int, fwdPath b players idx r D p ∧ D.Nodup ∧ r ∈ D ∧
        ∀ d ∈ D, d ∈ L := by
  intro L
  induction L with
  | nil =>
    intro p r _ _ hr
    exact absurd hr (List.not_mem_nil r)
  | cons c L2 ih =>
    intro p r hpath hnd hr
    obtain ⟨hfc, hnc, hL2⟩ := hpath
    rcases List.mem_cons.mp hr with heq | hmem
    · subst heq
      refine ⟨[r], ⟨rfl, hfc, hnc⟩, List.nodup_singleton r, List.mem_singleton_self r, ?_⟩
      intro d hd
      rw [List.mem_singleton] at hd
      exact hd ▸ List.mem_cons_self r L2
    · obtain ⟨D, hfwd, hndD, hrD, hsub⟩ := ih c r hL2 (List.Nodup.of_cons hnd) hmem
      have hcD : c ∉ D := by
        intro hcm
        exact (List.nodup_cons.mp hnd).1 (hsub c hcm)
      refine ⟨D ++ [c], fwdPath_append b players idx D r c p hfwd hfc hnc, ?_, ?_, ?_⟩
      · rw [List.nodup_append]
        refine ⟨hndD, List.nodup_singleton c, ?_⟩
        intro x hx hx2
        rw [List.mem_singleton] at hx2
        exact hcD (hx2 ▸ hx)
      · exact List.mem_append_left _ hrD
      · intro d hd
        rcases List.mem_append.mp hd with hd1 | hd2
        · exact List.mem_cons_of_mem c (hsub d hd1)
        · rw [List.mem_singleton] at hd2
          exact hd2 ▸ List.mem_cons_self c L2

/-- Running the chain loop from the start of a forward path of free,
pairwise-distinct cells, none of them already visited, stops exactly at the
path's endpoint when that endpoint is already visited or lies on the path
itself. -/
theorem run_fwdPath (b : Nat → Int) (players : List Int) (idx : Nat) :
    ∀ (D : List Int) (p t : Int) (W : List Int),
      fwdPath b players idx p D t → D.Nodup → (∀ d ∈ D, d ∉ W) →
      (t ∈ W ∨ t ∈ D) →
      aslRun b players idx W p = t := by
  intro D
  induction D with
  | nil =>
    intro p t W hp _ _ ht
    subst hp
    have htW : p ∈ W := by
      rcases ht with h1 | h2
      · exact h1
      · exact absurd h2 (List.not_mem_nil p)
    rw [aslRun_unfold, if_neg]
    intro hg
    exact hg.2.2.2 htW
  | cons d D2 ih =>
    intro p t W hp hnd hw ht
    obtain ⟨hpd, hfd, hrest⟩ := hp
    subst hpd
    have hocc := hfd.2.2.2
    simp only [nextCell] at hocc hrest
    rw [aslRun_unfold, if_pos ⟨hfd.1, hfd.2.1, hfd.2.2.1, hw p (List.mem_cons_self p D2)⟩,
      if_neg (by rw [hocc]; intro hc; exact absurd hc (by simp))]
    refine ih (p + b p.toNat) t (p :: W) hrest (List.Nodup.of_cons hnd) ?_ ?_
    · intro d2 hd2
      rw [List.mem_cons]
      push_neg
      constructor
      · intro heq
        exact (List.nodup_cons.mp hnd).1 (heq ▸ hd2)
      · exact hw d2 (List.mem_cons_of_mem p hd2)
    · rcases ht with h1 | h2
      · exact Or.inl (List.mem_cons_of_mem p h1)
      · rcases List.mem_cons.mp h2 with heq | hm
        · exact Or.inl (heq ▸ List.mem_cons_self p W)
        · exact Or.inr hm

/-- Idempotency of the chain loop, generalized over a visited list that
forms a path ending at the current cell (the loop invariant of
apply_snakes_ladders). -/
theorem aslRun_idem (b : Nat → Int) (players : List Int) (idx : Nat)
    (visited : List Int) (pos : Int) :
    isPath b players idx visited pos → visited.Nodup →
    aslRun b players idx [] (aslRun b players idx visited pos) =
      aslRun b players idx visited pos := by
  induction visited, pos using aslRun.induct b players idx with
  | case1 visited pos h newPos hocc =>
    intro _ _
    rw [aslRun_unfold b players idx visited pos, if_pos h, if_pos hocc]
    rw [aslRun_unfold b players idx [] pos,
      if_pos ⟨h.1, h.2.1, h.2.2.1, List.not_mem_nil pos⟩, if_pos hocc]
  | case2 visited pos h newPos hocc ih =>
    intro hpath hnd
    rw [aslRun_unfold b players idx visited pos, if_pos h, if_neg hocc]
    refine ih ⟨⟨h.1, h.2.1, h.2.2.1, Bool.not_eq_true _ ▸ hocc⟩, rfl, hpath⟩
      (List.nodup_cons.mpr ⟨h.2.2.2, hnd⟩)
  | case3 visited pos h =>
    intro hpath hnd
    rw [aslRun_unfold b players idx visited pos, if_neg h]
    by_cases hg : 0 < pos ∧ pos < 100 ∧ b pos.toNat ≠ 0
    · have hv : pos ∈ visited := by
        by_contra hnv
        exact h ⟨hg.1, hg.2.1, hg.2.2, hnv⟩
      obtain ⟨D, hfwd, hndD, hrD, _⟩ :=
        isPath_extract b players idx visited pos pos hpath hnd hv
      exact run_fwdPath b players idx D pos pos [] hfwd hndD
        (fun d _ hc => List.not_mem_nil d hc) (Or.inr hrD)
    · rw [aslRun_unfold, if_neg (fun hgg => hg ⟨hgg.1, hgg.2.1, hgg.2.2.1⟩)]

/-- One activation of the player_process loop body from players.c, for
player `idx`, given the dice total produced by roll_dice.  Returns the new
player vector, the new active count (slot num_players of the shared array)
and the number of SIGUSR1 render signals sent to the board process. -/
def player_process_turn (b : Nat → Int) (players : List Int) (active : Int)
    (idx : Nat) (dice : Nat) : List Int × Int × Nat :=
  let current_pos := players.getD idx 0
  if current_pos = 100 then (players, active, 1)
  else if dice = 0 then (players, active, 1)
  else
    let new_pos := current_pos + (dice : Int)
    if 100 < new_pos then (players, active, 1)
    else if new_pos < 100 ∧ is_cell_occupied new_pos idx players then (players, active, 1)
    else
      let final_pos := if new_pos < 100 then apply_snakes_ladders b players idx new_pos else new_pos
      if final_pos = 100 then (players.set idx 100, active - 1, 1)
      else (players.set idx final_pos, active, 1)

theorem apply_snakes_ladders_eq_fuel (b : Nat → Int) (players : List Int)
    (idx : Nat) (pos : Int) :
    apply_snakes_ladders b players idx pos = aslFuel b players idx 100 [] pos :=
  (aslFuel_eq_aslRun b players idx 100 [] pos (aslVisitedMeasure_le [])).symm

/-- Computable restatement of the turn body, with the chain loop run on
100 units of fuel; used only to evaluate concrete turns. -/
def player_process_turnF (b : Nat → Int) (players : List Int) (active : Int)
    (idx : Nat) (dice : Nat) : List Int × Int × Nat :=
  let current_pos := players.getD idx 0
  if current_pos = 100 then (players, active, 1)
  else if dice = 0 then (players, active, 1)
  else
    let new_pos := current_pos + (dice : Int)
    if 100 < new_pos then (players, active, 1)
    else if new_pos < 100 ∧ is_cell_occupied new_pos idx players then (players, active, 1)
    else
      let final_pos := if new_pos < 100 then aslFuel b players idx 100 [] new_pos else new_pos
      if final_pos = 100 then (players.set idx 100, active - 1, 1)
      else (players.set idx final_pos, active, 1)

theorem player_process_turn_eq_turnF (b : Nat → Int) (players : List Int)
    (active : Int) (idx : Nat) (dice : Nat) :
    player_process_turn b players active idx dice =
      player_process_turnF b players active idx dice := by
  simp only [player_process_turn, player_process_turnF, apply_snakes_ladders_eq_fuel]

/-- Exhaustive branch analysis of one turn: either nothing changes (no-op
for a finished player, cancelled move, overshoot, or occupied landing), or
the mover's own slot is set to a cell that is not occupied by any other
player and is not 100, or it is set to 100 and the active count is
decremented by one.  In the latter two cases the mover started away from
100. -/
theorem player_process_turn_cases (b : Nat → Int) (players : List Int)
    (active : Int) (idx : Nat) (dice : Nat) :
    player_process_turn b players active idx dice = (players, active, 1) ∨
    (players.getD idx 0 ≠ 100 ∧ dice ≠ 0 ∧
      players.getD idx 0 + (dice : Int) < 100 ∧
      is_cell_occupied (players.getD idx 0 + (dice : Int)) idx players = false ∧
      apply_snakes_ladders b players idx (players.getD idx 0 + (dice : Int)) ≠ 100 ∧
      player_process_turn b players active idx dice =
        (players.set idx
          (apply_snakes_ladders b players idx (players.getD idx 0 + (dice : Int))),
         active, 1)) ∨
    (players.getD idx 0 ≠ 100 ∧
      player_process_turn b players active idx dice =
        (players.set idx 100, active - 1, 1)) := by
  simp only [player_process_turn]
  by_cases h100 : players.getD idx 0 = 100
  · exact Or.inl (by rw [if_pos h100])
  · rw [if_neg h100]
    by_cases hd : dice = 0
    · exact Or.inl (by rw [if_pos hd])
    · rw [if_neg hd]
      by_cases hov : 100 < players.getD idx 0 + (dice : Int)
      · exact Or.inl (by rw [if_pos hov])
      · rw [if_neg hov]
        by_cases hoc : players.getD idx 0 + (dice : Int) < 100 ∧
            is_cell_occupied (players.getD idx 0 + (dice : Int)) idx players = true
        · exact Or.inl (by rw [if_pos hoc])
        · rw [if_neg hoc]
          by_cases hlt : players.getD idx 0 + (dice : Int) < 100
          · have hnocc : is_cell_occupied (players.getD idx 0 + (dice : Int)) idx players
                = false := by
              rcases Bool.eq_false_or_eq_true
                  (is_cell_occupied (players.getD idx 0 + (dice : Int)) idx players) with
                ht | hf
              · exact absurd ⟨hlt, ht⟩ hoc
              · exact hf
            have hr : is_cell_occupied
                (apply_snakes_ladders b players idx (players.getD idx 0 + (dice : Int)))
                idx players = false :=
              aslRun_not_occupied b players idx []
                (players.getD idx 0 + (dice : Int)) hnocc
            rw [if_pos hlt]
            by_cases hwin :
                apply_snakes_ladders b players idx (players.getD idx 0 + (dice : Int)) = 100
            · refine Or.inr (Or.inr ⟨h100, ?_⟩)
              rw [if_pos hwin]
            · refine Or.inr (Or.inl ⟨h100, hd, hlt, hnocc, hwin, ?_⟩)
              rw [if_neg hwin]
          · rw [if_neg hlt]
            have h1 : players.getD idx 0 + (dice : Int) = 100 := by omega
            refine Or.inr (Or.inr ⟨h100, ?_⟩)
            rw [if_pos h1]

/-- Claim C3: chain resolution follows the loop step rule of
apply_snakes_ladders (move to pos + effect while the cell has a non-zero
effect and was not yet visited, stopping before an occupied target), and
for every board configuration — cycles included — it terminates within
board-length steps (100 units of fuel never change the result, so each of
the at most 100 markable cells is visited at most once) and is idempotent:
resolving the resolved position again returns it unchanged. -/
theorem C3_chain_resolution (b : Nat → Int) (players : List Int) (idx : Nat) (pos : Int) :
    aslFuel b players idx 100 [] pos = apply_snakes_ladders b players idx pos ∧
    apply_snakes_ladders b players idx (apply_snakes_ladders b players idx pos) =
      apply_snakes_ladders b players idx pos :=
  ⟨(apply_snakes_ladders_eq_fuel b players idx pos).symm,
   aslRun_idem b players idx [] pos trivial List.nodup_nil⟩

/-- Claim C2: if the dice total is not cancelled and the target
current + dice exceeds 100, the whole turn is rejected: the player vector
and active count are returned unchanged (no clamp to 100, no partial
move), with the single render signal still sent. -/
theorem C2_overshoot_rejected (b : Nat → Int) (players : List Int) (active : Int)
    (idx : Nat) (d : Nat) (p : Int)
    (hp : players.getD idx 0 = p) (h0 : 0 ≤ p) (h1 : p < 100)
    (hd : d ≠ 0) (hover : 100 < p + (d : Int)) :
    player_process_turn b players active idx d = (players, active, 1) := by
  simp only [player_process_turn, hp]
  rw [if_neg (by omega), if_neg hd, if_pos hover]

theorem C2_overshoot_rejected_witness :
    player_process_turn (fun _ => 0) [95] 1 0 7 = ([95], 1, 1) :=
  C2_overshoot_rejected (fun _ => 0) [95] 1 0 7 95 rfl (by decide) (by decide)
    (by decide) (by decide)

/-- Claim C9: three consecutive 6s make roll_dice report total 0; a turn
fed that cancelled total leaves the player vector and the active count
unchanged and still sends exactly one render signal to the board
process. -/
theorem C9_triple_six (b : Nat → Int) (players : List Int) (active : Int) (idx : Nat) :
    roll_dice 6 6 6 = 0 ∧
    player_process_turn b players active idx (roll_dice 6 6 6) = (players, active, 1) := by
  refine ⟨rfl, ?_⟩
  have h0 : roll_dice 6 6 6 = 0 := rfl
  rw [h0]
  simp only [player_process_turn]
  by_cases h : players.getD idx 0 = 100
  · rw [if_pos h]
  · rw [if_neg h]
    simp

/-- Claim C6: with a non-cancelled dice total, a landing cell short of 100
that is occupied by a different non-finished player causes the whole move
to be rejected (state unchanged); a landing exactly on 100 is never
subjected to the occupancy check and is committed, finishing the
player. -/
theorem C6_occupied_landing (b : Nat → Int) (players : List Int) (active : Int)
    (idx : Nat) :
    (∀ d : Nat, d ≠ 0 → players.getD idx 0 + (d : Int) < 100 →
      is_cell_occupied (players.getD idx 0 + (d : Int)) idx players = true →
      player_process_turn b players active idx d = (players, active, 1)) ∧
    (∀ d : Nat, d ≠ 0 → players.getD idx 0 ≠ 100 →
      players.getD idx 0 + (d : Int) = 100 →
      player_process_turn b players active idx d =
        (players.set idx 100, active - 1, 1)) := by
  constructor
  · intro d hd hlt hocc
    simp only [player_process_turn]
    by_cases h100 : players.getD idx 0 = 100
    · rw [if_pos h100]
    · rw [if_neg h100, if_neg hd, if_neg (by omega), if_pos ⟨hlt, hocc⟩]
  · intro d hd h100 heq
    simp only [player_process_turn]
    rw [if_neg h100, if_neg hd, heq]
    norm_num

theorem C6_occupied_landing_witness :
    player_process_turn (fun _ => 0) [10, 14] 2 0 4 = ([10, 14], 2, 1) ∧
    player_process_turn (fun _ => 0) [10, 14] 2 0 90 = ([10, 14].set 0 100, 2 - 1, 1) :=
  ⟨(C6_occupied_landing (fun _ => 0) [10, 14] 2 0).1 4 (by decide) (by decide) (by decide),
   (C6_occupied_landing (fun _ => 0) [10, 14] 2 0).2 90 (by decide) (by decide) (by decide)⟩

/-- Board used to refute the last clause of claim C10: a ladder from cell
3 up 4 cells (records L 3 7 in ludo.txt). -/
def bC10 : Nat → Int := fun c => if c = 3 then 4 else 0

/-- Claim C10 counterexample: with the ladder 3 -> 7 on the board, a
player at cell 1 rolling a non-cancelled total of 2 lands on 3 and climbs
to 7: the net advance of the turn is exactly 6 cells, so a player can
advance exactly 6 cells in a single turn. -/
theorem C10_counterexample :
    roll_dice 2 1 1 ≠ 0 ∧
    (player_process_turn bC10 [1, 50] 2 0 (roll_dice 2 1 1)).1.getD 0 0 -
      [1, 50].getD 0 0 = 6 := by
  refine ⟨by decide, ?_⟩
  rw [player_process_turn_eq_turnF]
  decide

/-- Claim C10 (amended): the dice total of a non-cancelled turn always
lies in 1..5, 7..11 or 13..17 — never exactly 6, 12 or 18 — because a
rolled 6 forces another roll and three 6s cancel the move; hence the dice
displacement itself is never 6 (though board effects can still produce a
net advance of 6, as the counterexample shows). -/
theorem C10_dice_totals (d1 d2 d3 : Nat)
    (h1 : 1 ≤ d1) (h2 : d1 ≤ 6) (h3 : 1 ≤ d2) (h4 : d2 ≤ 6)
    (h5 : 1 ≤ d3) (h6 : d3 ≤ 6) (hnc : roll_dice d1 d2 d3 ≠ 0) :
    ((1 ≤ roll_dice d1 d2 d3 ∧ roll_dice d1 d2 d3 ≤ 5) ∨
     (7 ≤ roll_dice d1 d2 d3 ∧ roll_dice d1 d2 d3 ≤ 11) ∨
     (13 ≤ roll_dice d1 d2 d3 ∧ roll_dice d1 d2 d3 ≤ 17)) ∧
    roll_dice d1 d2 d3 ≠ 6 ∧ roll_dice d1 d2 d3 ≠ 12 ∧ roll_dice d1 d2 d3 ≠ 18 := by
  interval_cases d1 <;> interval_cases d2 <;> interval_cases d3 <;>
    (revert hnc; decide)

theorem getD_set_self (l : List Int) (i : Nat) (v : Int) (h : i < l.length) :
    (l.set i v).getD i 0 = v := by
  simp [List.getD_eq_getElem?_getD, List.getElem?_set_self h]

theorem getD_set_ne (l : List Int) (i j : Nat) (v : Int) (h : i ≠ j) :
    (l.set i v).getD j 0 = l.getD j 0 := by
  simp [List.getD_eq_getElem?_getD, List.getElem?_set_ne h]

theorem getD_replicate_zero (n i : Nat) : (List.replicate n (0 : Int)).getD i 0 = 0 := by
  rw [List.getD_eq_getElem?_getD, List.getElem?_replicate]
  split <;> rfl

/-- The shared game state: the player-position vector and the active count
(slot num_players of the players segment). -/
structure GState where
  players : List Int
  active : Int
deriving DecidableEq

/-- The shared state as initialized by create_shared_memory in ludo.c: all
positions 0 (home) and shm_players[num_players] = num_players. -/
def initState (n : Nat) : GState := ⟨List.replicate n 0, (n : Int)⟩

/-- One committed activation of player idx as a state transformer (the
render-signal count is dropped). -/
def doTurn (b : Nat → Int) (s : GState) (idx : Nat) (dice : Nat) : GState :=
  ⟨(player_process_turn b s.players s.active idx dice).1,
   (player_process_turn b s.players s.active idx dice).2.1⟩

/-- States reachable from the initial shared state by any sequence of
player activations (any in-range player index, any dice total). -/
inductive Reachable (b : Nat → Int) (n : Nat) : GState → Prop
  | init : Reachable b n (initState n)
  | step (s : GState) (idx dice : Nat) : Reachable b n s → idx < n →
      Reachable b n (doTurn b s idx dice)

/-- The occupancy invariant: no two distinct players share a board cell in
1..99.  (Home 0, destination 100 and off-board positions may be shared.) -/
def NoSharedMidCell (players : List Int) : Prop :=
  ∀ i j : Nat, i < players.length → j < players.length → i ≠ j →
    players.getD i 0 = players.getD j 0 →
    ¬(1 ≤ players.getD i 0 ∧ players.getD i 0 ≤ 99)

theorem NoSharedMidCell_set (players : List Int) (idx : Nat) (r : Int)
    (hinv : NoSharedMidCell players)
    (hnocc : is_cell_occupied r idx players = false) :
    NoSharedMidCell (players.set idx r) := by
  intro i j hi hj hij heq hrange
  rw [List.length_set] at hi hj
  by_cases hii : i = idx
  · subst hii
    rw [getD_set_self players i r hi] at heq hrange
    rw [getD_set_ne players i j r (by omega)] at heq
    have : is_cell_occupied r i players = true :=
      is_cell_occupied_eq_true.mpr ⟨by omega, by omega, j, hj, by omega, heq.symm⟩
    rw [hnocc] at this
    exact absurd this (by simp)
  · rw [getD_set_ne players idx i r (by omega)] at heq hrange
    by_cases hjj : j = idx
    · subst hjj
      rw [getD_set_self players j r hj] at heq
      have : is_cell_occupied r j players = true :=
        is_cell_occupied_eq_true.mpr ⟨by omega, by omega, i, hi, by omega, heq⟩
      rw [hnocc] at this
      exact absurd this (by simp)
    · rw [getD_set_ne players idx j r (by omega)] at heq
      exact hinv i j hi hj hij heq hrange

theorem doTurn_preserves_NoShared (b : Nat → Int) (s : GState) (idx dice : Nat)
    (hinv : NoSharedMidCell s.players) :
    NoSharedMidCell (doTurn b s idx dice).players := by
  rcases player_process_turn_cases b s.players s.active idx dice with
    hc | ⟨_, hdice, hlt, hocc, hne, hc⟩ | ⟨_, hc⟩
  · simp only [doTurn, hc]
    exact hinv
  · simp only [doTurn, hc]
    exact NoSharedMidCell_set _ _ _ hinv
      (aslRun_not_occupied b s.players idx [] _ hocc)
  · simp only [doTurn, hc]
    exact NoSharedMidCell_set _ _ _ hinv
      (is_cell_occupied_out_of_range (Or.inr (le_refl 100)))

theorem Reachable_NoShared (b : Nat → Int) (n : Nat) (s : GState)
    (h : Reachable b n s) : NoSharedMidCell s.players := by
  induction h with
  | init =>
    intro i j hi hj hij heq hr
    have h0 : (initState n).players.getD i 0 = 0 := getD_replicate_zero n i
    omega
  | step s idx dice hs hidx ih =>
    exact doTurn_preserves_NoShared b s idx dice ih

theorem Reachable_range (b : Nat → Int) (n : Nat) (hw : wellFormedBoard b)
    (s : GState) (h : Reachable b n s) :
    ∀ i : Nat, 0 ≤ s.players.getD i 0 ∧ s.players.getD i 0 ≤ 100 := by
  induction h with
  | init =>
    intro i
    have h0 : (initState n).players.getD i 0 = 0 := getD_replicate_zero n i
    omega
  | step s idx dice hs hidx ih =>
    intro i
    rcases player_process_turn_cases b s.players s.active idx dice with
      hc | ⟨_, hdice, hlt, hocc, hne, hc⟩ | ⟨_, hc⟩
    · simp only [doTurn, hc]
      exact ih i
    · simp only [doTurn, hc]
      by_cases hii : i = idx
      · subst hii
        by_cases hlen : i < s.players.length
        · rw [getD_set_self _ _ _ hlen]
          exact aslRun_range b s.players i hw [] (s.players.getD i 0 + (dice : Int))
            (by have := ih i; omega) (by omega)
        · rw [List.set_eq_of_length_le (by omega)]
          exact ih i
      · rw [getD_set_ne _ _ _ _ (by omega)]
        exact ih i
    · simp only [doTurn, hc]
      by_cases hii : i = idx
      · subst hii
        by_cases hlen : i < s.players.length
        · rw [getD_set_self _ _ _ hlen]
          omega
        · rw [List.set_eq_of_length_le (by omega)]
          exact ih i
      · rw [getD_set_ne _ _ _ _ (by omega)]
        exact ih i

/-- Claim C1 (amended): after any sequence of committed moves, no two
distinct players ever share a board cell c with 1 <= c <= 99 — this is
exactly what the move-commit occupancy checks enforce; cells 0 and 100 are
never considered occupied.  If, in addition, every board effect targets a
cell in 0..100 (the board model of the design), every shared position is
exactly 0 (home) or 100 (destination); without that restriction on the
board file a shared position can also be an off-board position, as the
counterexample shows. -/
theorem C1_no_shared_cell (b : Nat → Int) (n : Nat) (s : GState)
    (h : Reachable b n s) :
    NoSharedMidCell s.players ∧
    (wellFormedBoard b → ∀ i j : Nat, i < s.players.length → j < s.players.length →
      i ≠ j → s.players.getD i 0 = s.players.getD j 0 →
      s.players.getD i 0 = 0 ∨ s.players.getD i 0 = 100) := by
  refine ⟨Reachable_NoShared b n s h, ?_⟩
  intro hw i j hi hj hij heq
  have h1 := Reachable_NoShared b n s h i j hi hj hij heq
  have h2 := Reachable_range b n hw s h i
  omega

theorem C1_no_shared_cell_witness :
    (initState 2).players.getD 0 0 = 0 ∨ (initState 2).players.getD 0 0 = 100 :=
  (C1_no_shared_cell (fun _ => 0) 2 (initState 2) Reachable.init).2
    (by intro c h1 h2; simp only []; omega) 0 1 (by decide) (by decide)
    (by decide) (by decide)

/-- Board refuting the 0-or-100 reading of claim C1: the file record
L 5 150 is accepted by read_board_from_file and stores effect +145 at cell
5 (the loader never validates that the ladder top is a board cell). -/
def bC1 : Nat → Int := fun c => if c = 5 then 145 else 0

/-- The state after both players, starting from the initial state, roll a
total of 5: each lands on cell 5 and climbs the ladder to 150. -/
def c1State : GState := doTurn bC1 (doTurn bC1 (initState 2) 0 5) 1 5

/-- Claim C1 counterexample: with the accepted board record L 5 150, two
committed moves leave both players at position 150: their positions are
equal yet the common position is neither 0 (home) nor 100 (destination).
The chain loop moved each player to 150 because is_cell_occupied treats
every cell outside 1..99 — including off-board 150 — as unoccupied. -/
theorem C1_counterexample :
    Reachable bC1 2 c1State ∧
    c1State.players.getD 0 0 = c1State.players.getD 1 0 ∧
    c1State.players.getD 0 0 ≠ 0 ∧ c1State.players.getD 0 0 ≠ 100 := by
  refine ⟨Reachable.step _ 1 5 (Reachable.step _ 0 5 Reachable.init (by decide))
    (by decide), ?_⟩
  have h1 : doTurn bC1 (initState 2) 0 5 = ⟨[150, 0], 2⟩ := by
    simp only [doTurn, initState, player_process_turn_eq_turnF]
    decide
  have h2 : c1State = ⟨[150, 150], 2⟩ := by
    unfold c1State
    rw [h1]
    simp only [doTurn, player_process_turn_eq_turnF]
    decide
  rw [h2]
  refine ⟨by decide, by decide, by decide⟩

/-- Number of finished players (positions exactly 100). -/
def finishedCount (players : List Int) : Nat :=
  players.countP (fun p => p == 100)

theorem finishedCount_set :
    ∀ (players : List Int) (idx : Nat), idx < players.length → ∀ r : Int,
      finishedCount (players.set idx r) + (if players.getD idx 0 = 100 then 1 else 0) =
        finishedCount players + (if r = 100 then 1 else 0) := by
  intro players
  induction players with
  | nil =>
    intro idx h
    simp at h
  | cons a l ih =>
    intro idx h r
    cases idx with
    | zero =>
      simp only [List.set_cons_zero, finishedCount, List.countP_cons]
      have ha : (a :: l).getD 0 0 = a := rfl
      rw [ha]
      by_cases h1 : a = 100 <;> by_cases h2 : r = 100 <;> simp [h1, h2]
    | succ k =>
      simp only [List.set_cons_succ, finishedCount, List.countP_cons]
      have ha : (a :: l).getD (k + 1) 0 = l.getD k 0 := rfl
      rw [ha]
      have hk : k < l.length := by simpa using h
      have := ih k hk r
      simp only [finishedCount] at this
      omega

theorem finishedCount_le (players : List Int) :
    finishedCount players ≤ players.length :=
  List.countP_le_length _

theorem finishedCount_replicate_zero (n : Nat) :
    finishedCount (List.replicate n (0 : Int)) = 0 := by
  induction n with
  | zero => rfl
  | succ k ih =>
    simp only [List.replicate_succ, finishedCount, List.countP_cons] at ih ⊢
    simp [ih]

/-- The counting invariant of the shared active slot: along every
reachable state the player vector keeps its length and the active count
equals the player count minus the number of finished players. -/
theorem Reachable_active_eq (b : Nat → Int) (n : Nat) (s : GState)
    (h : Reachable b n s) :
    s.players.length = n ∧ s.active = (n : Int) - (finishedCount s.players : Int) := by
  induction h with
  | init =>
    refine ⟨by simp [initState], ?_⟩
    simp [initState, finishedCount_replicate_zero]
  | step s idx dice hs hidx ih =>
    rcases player_process_turn_cases b s.players s.active idx dice with
      hc | ⟨h100, hdice, hlt, hocc, hne, hc⟩ | ⟨h100, hc⟩
    · simp only [doTurn, hc]
      exact ih
    · simp only [doTurn, hc]
      have hlen : idx < s.players.length := by omega
      have hfc := finishedCount_set s.players idx hlen
        (apply_snakes_ladders b s.players idx (s.players.getD idx 0 + (dice : Int)))
      rw [if_neg h100, if_neg hne] at hfc
      refine ⟨by rw [List.length_set]; exact ih.1, ?_⟩
      have := ih.2
      omega
    · simp only [doTurn, hc]
      have hlen : idx < s.players.length := by omega
      have hfc := finishedCount_set s.players idx hlen 100
      rw [if_neg h100, if_pos rfl] at hfc
      refine ⟨by rw [List.length_set]; exact ih.1, ?_⟩
      have := ih.2
      omega

/-- Claim C5: the active count starts at the player count; along any
sequence of activations it stays non-negative, and one further activation
decrements it by exactly 1 exactly when that activation moves the
activated player's own position from a non-100 value to 100 (and is
unchanged otherwise). -/
theorem C5_active_count (b : Nat → Int) (n : Nat) (s : GState)
    (h : Reachable b n s) :
    (initState n).active = (n : Int) ∧
    0 ≤ s.active ∧
    ∀ idx dice : Nat, idx < n →
      (0 ≤ (doTurn b s idx dice).active ∧
       ((doTurn b s idx dice).active = s.active - 1 ↔
         (s.players.getD idx 0 ≠ 100 ∧
          (doTurn b s idx dice).players.getD idx 0 = 100))) := by
  have hinv := Reachable_active_eq b n s h
  have hfc := finishedCount_le s.players
  refine ⟨rfl, by omega, ?_⟩
  intro idx dice hidx
  have hinv2 := Reachable_active_eq b n (doTurn b s idx dice)
    (Reachable.step s idx dice h hidx)
  have hfc2 := finishedCount_le (doTurn b s idx dice).players
  have hlen : idx < s.players.length := by omega
  refine ⟨by omega, ?_⟩
  rcases player_process_turn_cases b s.players s.active idx dice with
    hc | ⟨h100, hdice, hlt, hocc, hne, hc⟩ | ⟨h100, hc⟩
  · constructor
    · intro hdec
      simp only [doTurn, hc] at hdec
      omega
    · intro ⟨hold, hnew⟩
      simp only [doTurn, hc] at hnew
      exact absurd hnew (by omega)
  · constructor
    · intro hdec
      simp only [doTurn, hc] at hdec
      omega
    · intro ⟨hold, hnew⟩
      simp only [doTurn, hc] at hnew
      rw [getD_set_self _ _ _ hlen] at hnew
      exact absurd hnew hne
  · constructor
    · intro _
      simp only [doTurn, hc]
      exact ⟨h100, getD_set_self _ _ _ hlen⟩
    · intro _
      simp only [doTurn, hc]

theorem C5_active_count_witness :
    (initState 2).active = (2 : Int) ∧
    0 ≤ (initState 2).active ∧
    (0 ≤ (doTurn (fun _ => 0) (initState 2) 0 5).active ∧
     ((doTurn (fun _ => 0) (initState 2) 0 5).active = (initState 2).active - 1 ↔
       ((initState 2).players.getD 0 0 ≠ 100 ∧
        (doTurn (fun _ => 0) (initState 2) 0 5).players.getD 0 0 = 100))) := by
  have h := C5_active_count (fun _ => 0) 2 (initState 2) Reachable.init
  exact ⟨h.1, h.2.1, h.2.2 0 5 (by decide)⟩

theorem emod_shift (n a t : Int) : (a % n + t) % n = (a + t) % n := by
  conv_lhs => rw [Int.add_emod]
  rw [Int.emod_emod_of_dvd a (dvd_refl n), ← Int.add_emod]

/-- The scan loop of get_next_player from players.c, with the remaining
iteration count explicit: each probe first advances the cursor to
(cur + 1) % num_players (the C code mutates the global current_player),
then selects that player if its recorded position is not 100.  Returns the
selected index (or -1 after a fruitless full scan) together with the final
cursor value. -/
def gnpAux (players : List Int) (n : Nat) : Nat → Int → Int × Int
  | 0, cur => (-1, cur)
  | fuel + 1, cur =>
    let c := (cur + 1) % (n : Int)
    if players.getD c.toNat 0 ≠ 100 then (c, c)
    else gnpAux players n fuel c

/-- get_next_player from players.c: scan the roster circularly at most
num_players steps. -/
def get_next_player (players : List Int) (n : Nat) (cur : Int) : Int × Int :=
  gnpAux players n n cur

/-- The move_requested branch of player_parent_process's main loop in
players.c: if the active count is not positive, or the scan returns -1, no
SIGUSR1 is sent to any player; otherwise exactly the selected player is
signaled.  Returns the signal target (none = no signal) and the updated
cursor. -/
def pp_handle_move (players : List Int) (n : Nat) (active : Int) (cur : Int) :
    Option Nat × Int :=
  if active ≤ 0 then (none, cur)
  else
    let r := get_next_player players n cur
    if r.1 < 0 then (none, r.2) else (some r.1.toNat, r.2)

theorem gnpAux_all_finished (players : List Int) (n : Nat) (hn : 0 < n)
    (hall : ∀ i : Nat, i < n → players.getD i 0 = 100) :
    ∀ (fuel : Nat) (cur : Int), 0 ≤ cur → cur < n →
      gnpAux players n fuel cur = (-1, (cur + fuel) % n) := by
  intro fuel
  induction fuel with
  | zero =>
    intro cur h0 h1
    simp only [gnpAux]
    rw [Nat.cast_zero, add_zero, Int.emod_eq_of_lt h0 h1]
  | succ fuel ih =>
    intro cur h0 h1
    have hnz : (n : Int) ≠ 0 := by omega
    have hc0 : 0 ≤ (cur + 1) % (n : Int) := Int.emod_nonneg _ hnz
    have hc1 : (cur + 1) % (n : Int) < n := Int.emod_lt_of_pos _ (by omega)
    have h100 : players.getD ((cur + 1) % (n : Int)).toNat 0 = 100 := by
      apply hall
      omega
    simp only [gnpAux]
    rw [if_neg (not_ne_iff.mpr h100)]
    rw [ih _ hc0 hc1]
    have harith : ((cur + 1) % (n : Int) + (fuel : Int)) % n =
        (cur + ((fuel + 1 : Nat) : Int)) % n := by
      rw [emod_shift]
      congr 1
      push_cast
      ring
    rw [harith]

theorem gnpAux_finds_first (players : List Int) (n : Nat) (hn : 0 < n) :
    ∀ (fuel : Nat) (cur : Int), 0 ≤ cur → cur < n →
      (∃ t : Nat, 1 ≤ t ∧ t ≤ fuel ∧
        players.getD (((cur + t) % n).toNat) 0 ≠ 100) →
      ∃ s : Nat, 1 ≤ s ∧ s ≤ fuel ∧
        (∀ t : Nat, 1 ≤ t → t < s → players.getD (((cur + t) % n).toNat) 0 = 100) ∧
        players.getD (((cur + s) % n).toNat) 0 ≠ 100 ∧
        gnpAux players n fuel cur = ((cur + s) % n, (cur + s) % n) := by
  intro fuel
  induction fuel with
  | zero =>
    intro cur _ _ hex
    obtain ⟨t, ht1, ht2, _⟩ := hex
    omega
  | succ fuel ih =>
    intro cur h0 h1 hex
    obtain ⟨t, ht1, ht2, htne⟩ := hex
    have hnz : (n : Int) ≠ 0 := by omega
    have hc0 : 0 ≤ (cur + 1) % (n : Int) := Int.emod_nonneg _ hnz
    have hc1 : (cur + 1) % (n : Int) < n := Int.emod_lt_of_pos _ (by omega)
    have hone : (cur + ((1 : Nat) : Int)) = cur + 1 := by push_cast; ring
    have hshift : ∀ u : Nat, (((cur + 1) % (n : Int)) + (u : Int)) % n =
        (cur + ((u + 1 : Nat) : Int)) % n := by
      intro u
      rw [emod_shift]
      congr 1
      push_cast
      ring
    by_cases hfirst : players.getD (((cur + 1) % (n : Int)).toNat) 0 = 100
    · have ht2' : 2 ≤ t := by
        by_contra hlt
        have ht1' : t = 1 := by omega
        subst ht1'
        apply htne
        rw [hone]
        exact hfirst
      have hside : ∃ u : Nat, 1 ≤ u ∧ u ≤ fuel ∧
          players.getD ((((cur + 1) % (n : Int)) + (u : Int)) % n).toNat 0 ≠ 100 := by
        refine ⟨t - 1, by omega, by omega, ?_⟩
        rw [hshift (t - 1)]
        have hv' : t - 1 + 1 = t := by omega
        rw [hv']
        exact htne
      obtain ⟨s, hs1, hs2, hsall, hsne, hseq⟩ := ih ((cur + 1) % n) hc0 hc1 hside
      refine ⟨s + 1, by omega, by omega, ?_, ?_, ?_⟩
      · intro u hu1 hu2
        rcases Nat.lt_or_ge u 2 with hu | hu
        · have hu' : u = 1 := by omega
          subst hu'
          rw [hone]
          exact hfirst
        · have hv := hsall (u - 1) (by omega) (by omega)
          rw [hshift (u - 1)] at hv
          have hv' : u - 1 + 1 = u := by omega
          rw [hv'] at hv
          exact hv
      · have hv := hsne
        rw [hshift s] at hv
        exact hv
      · simp only [gnpAux]
        rw [if_neg (not_ne_iff.mpr hfirst)]
        rw [hseq, hshift s]
    · refine ⟨1, le_refl 1, by omega, ?_, ?_, ?_⟩
      · intro u hu1 hu2
        omega
      · rw [hone]
        exact hfirst
      · simp only [gnpAux]
        rw [if_pos hfirst]
        rw [hone]

/-- Claim C4: the selection scan starts one position after the cursor and
probes at most num_players roster slots circularly; the first player whose
position is not 100 is selected, the cursor ends at that index, and
exactly that player is signaled.  If every player is at 100 the scan
completes a full circle (cursor back where it started), returns -1, and
the activation sends no signal at all — a harmless no-op. -/
theorem C4_turn_selection (players : List Int) (n : Nat) (active : Int) (cur : Int)
    (hn : 0 < n) (h0 : 0 ≤ cur) (h1 : cur < n) :
    ((∀ i : Nat, i < n → players.getD i 0 = 100) →
      get_next_player players n cur = (-1, cur) ∧
      (pp_handle_move players n active cur).1 = none) ∧
    (∀ j : Nat, j < n → players.getD j 0 ≠ 100 → 0 < active →
      ∃ s : Nat, 1 ≤ s ∧ s ≤ n ∧
        (∀ t : Nat, 1 ≤ t → t < s → players.getD (((cur + t) % n).toNat) 0 = 100) ∧
        players.getD (((cur + s) % n).toNat) 0 ≠ 100 ∧
        get_next_player players n cur = ((cur + s) % n, (cur + s) % n) ∧
        pp_handle_move players n active cur =
          (some (((cur + s) % n).toNat), (cur + s) % n)) := by
  constructor
  · intro hall
    have hg : get_next_player players n cur = (-1, cur) := by
      unfold get_next_player
      rw [gnpAux_all_finished players n hn hall n cur h0 h1]
      rw [Int.add_emod_self, Int.emod_eq_of_lt h0 h1]
    refine ⟨hg, ?_⟩
    simp only [pp_handle_move, hg]
    by_cases ha : active ≤ 0
    · rw [if_pos ha]
    · rw [if_neg ha]
      norm_num
  · intro j hj hjne ha
    have hnz : (n : Int) ≠ 0 := by omega
    obtain ⟨t, ht1, ht2, hteq⟩ :
        ∃ t : Nat, 1 ≤ t ∧ t ≤ n ∧ (cur + (t : Int)) % n = (j : Int) := by
      have hm0 : 0 ≤ ((j : Int) - cur - 1) % n := Int.emod_nonneg _ hnz
      have hm1 : ((j : Int) - cur - 1) % n < n := Int.emod_lt_of_pos _ (by omega)
      refine ⟨(((j : Int) - cur - 1) % n).toNat + 1, by omega, by omega, ?_⟩
      push_cast [Int.toNat_of_nonneg hm0]
      have he1 : cur + (((j : Int) - cur - 1) % n + 1) =
          ((j : Int) - cur - 1) % n + (cur + 1) := by ring
      rw [he1, emod_shift]
      have he2 : (j : Int) - cur - 1 + (cur + 1) = (j : Int) := by ring
      rw [he2]
      exact Int.emod_eq_of_lt (by omega) (by omega)
    obtain ⟨s, hs1, hs2, hsall, hsne, hseq⟩ :=
      gnpAux_finds_first players n hn n cur h0 h1
        ⟨t, ht1, ht2, by rw [hteq]; simpa using hjne⟩
    have hm0 : 0 ≤ (cur + (s : Int)) % n := Int.emod_nonneg _ hnz
    refine ⟨s, hs1, hs2, hsall, hsne, hseq, ?_⟩
    simp only [pp_handle_move, get_next_player, hseq]
    rw [if_neg (by omega), if_neg (by omega)]

theorem C4_turn_selection_witness :
    (get_next_player [100, 100] 2 0 = (-1, 0) ∧
     (pp_handle_move [100, 100] 2 0 0).1 = none) ∧
    pp_handle_move [100, 7] 2 1 0 = (some 1, 1) := by
  constructor
  · exact (C4_turn_selection [100, 100] 2 0 0 (by decide) (by decide) (by decide)).1
      (by decide)
  · obtain ⟨s, hs1, hs2, hsall, hsne, hg, hp⟩ :=
      (C4_turn_selection [100, 7] 2 1 0 (by decide) (by decide) (by decide)).2
        1 (by decide) (by decide) (by decide)
    have hs : s = 1 := by
      by_contra hne1
      have hs2' : s = 2 := by omega
      subst hs2'
      have hv := hsall 1 (by omega) (by omega)
      revert hv
      decide
    subst hs
    rw [hp]
    decide

theorem C10_dice_totals_witness :
    ((1 ≤ roll_dice 2 1 1 ∧ roll_dice 2 1 1 ≤ 5) ∨
     (7 ≤ roll_dice 2 1 1 ∧ roll_dice 2 1 1 ≤ 11) ∨
     (13 ≤ roll_dice 2 1 1 ∧ roll_dice 2 1 1 ≤ 17)) ∧
    roll_dice 2 1 1 ≠ 6 ∧ roll_dice 2 1 1 ≠ 12 ∧ roll_dice 2 1 1 ≠ 18 :=
  C10_dice_totals 2 1 1 (by decide) (by decide) (by decide) (by decide)
    (by decide) (by decide) (by decide)

/-- The observable teardown actions of cleanup in ludo.c. -/
inductive CleanupStep
  | signalPP | waitXPP | signalBP | waitXBP | closePipe | removeFifo
  | detachBoard | detachPlayers | destroyBoard | destroyPlayers
deriving DecidableEq

/-- cleanup from ludo.c as the ordered list of teardown actions it
performs, given which handles are valid: SIGUSR2 to PP (if pp_pid > 0),
waitpid on XPP (if xpp_pid > 0), SIGUSR2 to BP, waitpid on XBP, close of
the pipe (if open) and unlink of the FIFO, shmdt of the attached segments,
and shmctl IPC_RMID of the created segments — in exactly this program
order.  Each waitpid blocks until the corresponding process has exited
before the function moves on. -/
def cleanup_trace (pp_pid xpp_pid bp_pid xbp_pid pipe_fd : Int)
    (board_attached players_attached : Bool)
    (shm_id_board shm_id_players : Int) : List CleanupStep :=
  (if 0 < pp_pid then [CleanupStep.signalPP] else []) ++
  (if 0 < xpp_pid then [CleanupStep.waitXPP] else []) ++
  (if 0 < bp_pid then [CleanupStep.signalBP] else []) ++
  (if 0 < xbp_pid then [CleanupStep.waitXBP] else []) ++
  (if pipe_fd ≠ -1 then [CleanupStep.closePipe] else []) ++
  [CleanupStep.removeFifo] ++
  (if board_attached then [CleanupStep.detachBoard] else []) ++
  (if players_attached then [CleanupStep.detachPlayers] else []) ++
  (if 0 ≤ shm_id_board then [CleanupStep.destroyBoard] else []) ++
  (if 0 ≤ shm_id_players then [CleanupStep.destroyPlayers] else [])

/-- The canonical teardown order: quiesce the player subsystem, then the
board subsystem, then remove the rendezvous channel, and destroy the
shared memory only last. -/
def cleanupFullOrder : List CleanupStep :=
  [CleanupStep.signalPP, CleanupStep.waitXPP, CleanupStep.signalBP,
   CleanupStep.waitXBP, CleanupStep.closePipe, CleanupStep.removeFifo,
   CleanupStep.detachBoard, CleanupStep.detachPlayers,
   CleanupStep.destroyBoard, CleanupStep.destroyPlayers]

theorem ite_singleton_sublist {α : Type} (c : Prop) [Decidable c] (x : α) :
    List.Sublist (if c then [x] else []) [x] := by
  split
  · exact List.Sublist.refl _
  · exact List.nil_sublist _

/-- Claim C7: teardown performs its steps in the fixed order signal-PP,
wait-XPP, signal-BP, wait-XBP, close pipe, remove FIFO, detach shared
memory, destroy shared memory — whatever subset of handles is valid, the
emitted actions are a sublist of this canonical order (so SharedState is
destroyed only after the player and board subsystems were signaled and
waited for), and with all handles valid the full sequence is emitted. -/
theorem C7_teardown_order (pp_pid xpp_pid bp_pid xbp_pid pipe_fd : Int)
    (board_attached players_attached : Bool)
    (shm_id_board shm_id_players : Int) :
    List.Sublist
      (cleanup_trace pp_pid xpp_pid bp_pid xbp_pid pipe_fd
        board_attached players_attached shm_id_board shm_id_players)
      cleanupFullOrder ∧
    (0 < pp_pid → 0 < xpp_pid → 0 < bp_pid → 0 < xbp_pid → pipe_fd ≠ -1 →
      board_attached = true → players_attached = true →
      0 ≤ shm_id_board → 0 ≤ shm_id_players →
      cleanup_trace pp_pid xpp_pid bp_pid xbp_pid pipe_fd
        board_attached players_attached shm_id_board shm_id_players =
        cleanupFullOrder) := by
  constructor
  · unfold cleanup_trace
    show List.Sublist _
      ((((((((([CleanupStep.signalPP] ++ [CleanupStep.waitXPP]) ++ [CleanupStep.signalBP]) ++
       [CleanupStep.waitXBP]) ++ [CleanupStep.closePipe]) ++ [CleanupStep.removeFifo]) ++
       [CleanupStep.detachBoard]) ++ [CleanupStep.detachPlayers]) ++
       [CleanupStep.destroyBoard]) ++ [CleanupStep.destroyPlayers])
    exact ((((((((((ite_singleton_sublist _ _).append
      (ite_singleton_sublist _ _)).append
      (ite_singleton_sublist _ _)).append
      (ite_singleton_sublist _ _)).append
      (ite_singleton_sublist _ _)).append
      (List.Sublist.refl _)).append
      (ite_singleton_sublist _ _)).append
      (ite_singleton_sublist _ _)).append
      (ite_singleton_sublist _ _)).append
      (ite_singleton_sublist _ _))
  · intro h1 h2 h3 h4 h5 h6 h7 h8 h9
    unfold cleanup_trace
    rw [if_pos h1, if_pos h2, if_pos h3, if_pos h4, if_pos h5, if_pos h6,
      if_pos h7, if_pos h8, if_pos h9]
    rfl

theorem C7_teardown_order_witness :
    cleanup_trace 11 12 13 14 5 true true 0 1 = cleanupFullOrder :=
  (C7_teardown_order 11 12 13 14 5 true true 0 1).2 (by decide) (by decide)
    (by decide) (by decide) (by decide) rfl rfl (by decide) (by decide)

/-- The byte-reading loop of read_line_from_fifo from ludo.c, with the
remaining buffer capacity (max_len - 1 - i) explicit.  The stream is the
sequence of bytes the FIFO will still deliver; an exhausted stream is EOF
(read returns 0).  EINTR interruptions are retried by the C loop and are
therefore invisible here.  Returns the C return value (bytes stored, or -1
on EOF with nothing stored in this line), the buffer contents and the
unread rest of the stream. -/
def rlffLoop : Nat → List Char → List Char → Int × List Char × List Char
  | 0, acc, s => ((acc.length : Int), acc, s)
  | _ + 1, acc, [] => (if 0 < acc.length then (acc.length : Int) else -1, acc, [])
  | cap + 1, acc, ch :: rest =>
    if ch = '\n' then ((acc.length : Int), acc, rest)
    else rlffLoop cap (acc ++ [ch]) rest

/-- read_line_from_fifo from ludo.c. -/
def read_line_from_fifo (max_len : Nat) (stream : List Char) :
    Int × List Char × List Char :=
  rlffLoop (max_len - 1) [] stream

/-- wait_for_ack from ludo.c: one blocking line read into a 64-byte
buffer; whether the read yields a line (ACK or anything else) or fails
(EOF, return -1), the function just returns and its caller proceeds —
the C function is void and has no error or abort path.  The only
observable effect is the consumed stream. -/
def wait_for_ack (stream : List Char) : List Char :=
  (read_line_from_fifo 64 stream).2.2

/-- Leading-decimal-digit parsing, the behavior of atoi on the digit tail
of a PID line. -/
def parseDigits : List Char → Nat → Nat
  | [], acc => acc
  | ch :: rest, acc =>
    if ch.isDigit then parseDigits rest (acc * 10 + (ch.toNat - 48)) else acc

/-- read_pid_from_pipe from ludo.c: one line read; a line of the form
PID:digits yields the decimal value, anything else — a malformed line or a
failed read (EOF, -1) — yields PID -1 to the caller. -/
def read_pid_from_pipe (stream : List Char) : Int × List Char :=
  let r := read_line_from_fifo 64 stream
  if 0 < r.1 then
    match r.2.1 with
    | 'P' :: 'I' :: 'D' :: ':' :: rest => ((parseDigits rest 0 : Int), r.2.2)
    | _ => (-1, r.2.2)
  else (-1, r.2.2)

theorem rlffLoop_no_newline :
    ∀ (s : List Char) (cap : Nat) (acc : List Char),
      (∀ c ∈ s, c ≠ '\n') → s.length ≤ cap → (0 < acc.length ∨ s ≠ []) →
      (rlffLoop cap acc s).1 = ((acc.length + s.length : Nat) : Int) := by
  intro s
  induction s with
  | nil =>
    intro cap acc _ _ hne
    have hacc : 0 < acc.length := by
      rcases hne with h | h
      · exact h
      · exact absurd rfl h
    cases cap with
    | zero => simp [rlffLoop]
    | succ cap =>
      simp only [rlffLoop, if_pos hacc]
      simp
  | cons ch rest ih =>
    intro cap acc hnl hlen hne
    cases cap with
    | zero => simp at hlen
    | succ cap =>
      simp only [rlffLoop]
      rw [if_neg (hnl ch (List.mem_cons_self ch rest))]
      rw [ih cap (acc ++ [ch]) (fun c hc => hnl c (List.mem_cons_of_mem ch hc))
        (by simpa using hlen) (Or.inl (by simp))]
      congr 1
      simp
      omega

/-- Claim C8 counterexample: a read on which the writer dies after
delivering two bytes of an unterminated line encounters EOF yet returns 2
— the partial bytes are reported exactly like a successfully completed
line, not as a failure.  So it is not true that a read encountering EOF
is reported as a failure to the caller. -/
theorem C8_counterexample :
    (read_line_from_fifo 64 [ 'A', 'B' ]).1 = 2 ∧
    (read_line_from_fifo 64 [ 'A', 'B' ]).1 ≠ -1 := by
  constructor
  · decide
  · decide

/-- Claim C8 (amended): EOF with no bytes read in the current line is
reported as -1 to the immediate caller; EOF after a partial line is
reported as the byte count, indistinguishable from a completed line.  The
Supervisor-side callers absorb the -1 rather than escalate: wait_for_ack
returns normally (the game loop proceeds) and read_pid_from_pipe reports
PID -1; EOF is never made a fatal condition in the Supervisor. -/
theorem C8_eof_reporting (max_len : Nat) (hm : 2 ≤ max_len) :
    read_line_from_fifo max_len [] = (-1, [], []) ∧
    wait_for_ack [] = [] ∧
    read_pid_from_pipe [] = (-1, []) ∧
    (∀ s : List Char, (∀ c ∈ s, c ≠ '\n') → s.length ≤ max_len - 1 → s ≠ [] →
      (read_line_from_fifo max_len s).1 = (s.length : Nat)) := by
  refine ⟨?_, rfl, rfl, ?_⟩
  · unfold read_line_from_fifo
    obtain ⟨k, hk⟩ : ∃ k, max_len - 1 = k + 1 := ⟨max_len - 2, by omega⟩
    rw [hk]
    simp [rlffLoop]
  · intro s hnl hlen hne
    unfold read_line_from_fifo
    rw [rlffLoop_no_newline s (max_len - 1) [] hnl hlen (Or.inr hne)]
    simp

theorem C8_eof_reporting_witness :
    read_line_from_fifo 64 [] = (-1, [], []) ∧
    wait_for_ack [] = [] ∧
    read_pid_from_pipe [] = (-1, []) ∧
    (read_line_from_fifo 64 [ 'X' ]).1 = ((1 : Nat) : Int) := by
  have h := C8_eof_reporting 64 (by decide)
  exact ⟨h.1, h.2.1, h.2.2.1, h.2.2.2 [ 'X' ] (by decide) (by decide) (by decide)⟩

end Ludo
